import Mathlib

/-!
Shallow embedding of `src/mpmc.rs` (Dmitry Vyukov's bounded MPMC queue,
fixed capacity `N`, per-slot sequence counters, narrow `i8` wraparound
comparison), together with proofs about its sequential (single-actor)
behaviour.

Modelling conventions:
* `usize` values are `Nat` reduced modulo `2 ^ 64` (`wrap`); `wrapping_add`
  is addition followed by `wrap`.
* `MaybeUninit<T>` is `Option T` (`none` = uninitialized storage).
* The `AtomicUsize` position counters are plain fields: we study the
  single-actor semantics, in which every load sees the current value and a
  compare-exchange succeeds exactly when the compared values are equal.
* The `loop`s of `enqueue` / `dequeue` are modelled with an explicit fuel
  argument; a result of `none` means the loop did not exit within the given
  fuel.  Divergence of a loop is `∀ fuel, result fuel = none`.
-/

set_option maxRecDepth 10000

namespace Mpmc

/-- Width of `usize` (the reference hardware is 64-bit; only multiples of 256
dividing this constant matter for the proofs). -/
def USIZE : Nat := 2 ^ 64

/-- Reduction of a `Nat` to the `usize` range; `a.wrapping_add b` is
`wrap (a + b)`. -/
def wrap (n : Nat) : Nat := n % USIZE

/-- The unsigned byte `(a - b) mod 256`, i.e. the two's-complement bit
pattern of `(a as i8).wrapping_sub(b as i8)`. -/
def i8_byte (a b : Nat) : Nat :=
  (a % 256 + 256 - b % 256) % 256

/-- The result of `(a as i8).wrapping_sub(b as i8)` viewed as a mathematical
integer in `[-128, 127]`: the byte `(a - b) mod 256`, interpreted as a signed
two's-complement 8-bit value. -/
def i8_sub (a b : Nat) : Int :=
  if i8_byte a b < 128 then (i8_byte a b : Int) else (i8_byte a b : Int) - 256

/-- One slot of the queue: `struct Cell<T> { data: MaybeUninit<T>, sequence: AtomicUsize }`. -/
structure Cell (T : Type) where
  data : Option T
  sequence : Nat
deriving DecidableEq

/-- `Cell::new(seq)`: uninitialized data, sequence counter `seq`. -/
def Cell.new (T : Type) (seq : Nat) : Cell T :=
  ⟨none, seq⟩

/-- `struct MpMcQueue<T, const N: usize>`: slot buffer plus the two position
counters. -/
structure MpMcQueue (T : Type) (N : Nat) where
  buffer : List (Cell T)
  dequeue_pos : Nat
  enqueue_pos : Nat
deriving DecidableEq

/-- `MpMcQueue::MASK = N - 1` (note: `Nat` subtraction; Rust underflows, and
hence fails to compile, only for `N = 0`). -/
def mask (N : Nat) : Nat := N - 1

/-- The initialization loop of `MpMcQueue::new`:
`while cell_count != N { result_cells[cell_count] = Cell::new(cell_count); cell_count += 1 }`.
The loop starts at `cell_count = 0` and increments up to `N`, so it runs
exactly `N` iterations; the first argument is the number of iterations still
to run (`N - cell_count`), which makes the recursion structural. -/
def initLoop (T : Type) : Nat → Nat → List (Cell T) → List (Cell T)
  | 0, _, cells => cells
  | remaining + 1, cell_count, cells =>
    initLoop T remaining (cell_count + 1)
      (cells.set cell_count (Cell.new T cell_count))

/-- `MpMcQueue::new`: buffer starts as `[Self::EMPTY_CELL; N]`
(`EMPTY_CELL = Cell::new(0)`) and the loop rewrites entry `i` to
`Cell::new(i)`; both position counters start at `0`. -/
def MpMcQueue.new (T : Type) (N : Nat) : MpMcQueue T N :=
  ⟨initLoop T N 0 (List.replicate N (Cell.new T 0)), 0, 0⟩

/-- Outcome of `enqueue`: `Ok(())` or `Err(item)` (queue full, item handed
back). -/
inductive EnqResult (T : Type) where
  | accepted : EnqResult T
  | rejected : T → EnqResult T
deriving DecidableEq

/-- Outcome of `dequeue`: `Some(v)`, `None` (queue empty), or a read of
uninitialized slot storage (undefined behaviour in the source; never happens
in reachable states). -/
inductive DeqResult (T : Type) where
  | value : T → DeqResult T
  | empty : DeqResult T
  | uninit : DeqResult T
deriving DecidableEq

/-- The retry loop of the free function `enqueue`, single-actor semantics.
Arguments after the fuel: the slot buffer, the current value of the
`enqueue_pos` atomic, and the local variable `pos`.  Each iteration:
read slot `pos & mask`, compute `dif = (seq as i8).wrapping_sub(pos as i8)`;
`dif == 0`: compare-exchange `enqueue_pos` from `pos` to `pos + 1` (success
breaks the loop, then writes `item` and publishes `sequence = pos + 1`;
failure retries with the same `pos`); `dif < 0`: return `Err(item)`;
otherwise reload `pos` from `enqueue_pos` and retry.  Returns the Rust
result together with the new buffer and new `enqueue_pos`. -/
def enqueueAux (T : Type) (msk : Nat) (item : T) :
    Nat → List (Cell T) → Nat → Nat →
      Option (EnqResult T × List (Cell T) × Nat)
  | 0, _, _, _ => none
  | fuel + 1, buffer, enqueue_pos, pos =>
    if i8_sub (buffer.getD (pos &&& msk) (Cell.new T 0)).sequence pos = 0 then
      if enqueue_pos = pos then
        some (EnqResult.accepted,
          buffer.set (pos &&& msk) ⟨some item, wrap (pos + 1)⟩,
          wrap (pos + 1))
      else
        enqueueAux T msk item fuel buffer enqueue_pos pos
    else if i8_sub (buffer.getD (pos &&& msk) (Cell.new T 0)).sequence pos < 0 then
      some (EnqResult.rejected item, buffer, enqueue_pos)
    else
      enqueueAux T msk item fuel buffer enqueue_pos enqueue_pos

/-- The retry loop of the free function `dequeue`, single-actor semantics;
symmetric to `enqueueAux` with comparison target `pos + 1`
(`dif = (seq as i8).wrapping_sub((pos.wrapping_add(1)) as i8)`).  On a
successful claim it reads the slot data and republishes
`sequence = pos.wrapping_add(mask).wrapping_add(1)`.  Returns the Rust
result together with the new buffer and new `dequeue_pos`. -/
def dequeueAux (T : Type) (msk : Nat) :
    Nat → List (Cell T) → Nat → Nat →
      Option (DeqResult T × List (Cell T) × Nat)
  | 0, _, _, _ => none
  | fuel + 1, buffer, dequeue_pos, pos =>
    if i8_sub (buffer.getD (pos &&& msk) (Cell.new T 0)).sequence
        (wrap (pos + 1)) = 0 then
      if dequeue_pos = pos then
        some
          ((match (buffer.getD (pos &&& msk) (Cell.new T 0)).data with
            | some v => DeqResult.value v
            | none => DeqResult.uninit),
          buffer.set (pos &&& msk)
            ⟨(buffer.getD (pos &&& msk) (Cell.new T 0)).data,
              wrap (wrap (pos + msk) + 1)⟩,
          wrap (pos + 1))
      else
        dequeueAux T msk fuel buffer dequeue_pos pos
    else if i8_sub (buffer.getD (pos &&& msk) (Cell.new T 0)).sequence
        (wrap (pos + 1)) < 0 then
      some (DeqResult.empty, buffer, dequeue_pos)
    else
      dequeueAux T msk fuel buffer dequeue_pos dequeue_pos

/-- `MpMcQueue::enqueue`: runs the loop starting from the current
`enqueue_pos` with `MASK = N - 1`. -/
def MpMcQueue.enqueue {T : Type} {N : Nat} (q : MpMcQueue T N) (item : T)
    (fuel : Nat) : Option (EnqResult T × MpMcQueue T N) :=
  match enqueueAux T (mask N) item fuel q.buffer q.enqueue_pos q.enqueue_pos with
  | none => none
  | some (r, buf, pos) => some (r, ⟨buf, q.dequeue_pos, pos⟩)

/-- `MpMcQueue::dequeue`: runs the loop starting from the current
`dequeue_pos` with `MASK = N - 1`. -/
def MpMcQueue.dequeue {T : Type} {N : Nat} (q : MpMcQueue T N)
    (fuel : Nat) : Option (DeqResult T × MpMcQueue T N) :=
  match dequeueAux T (mask N) fuel q.buffer q.dequeue_pos q.dequeue_pos with
  | none => none
  | some (r, buf, pos) => some (r, ⟨buf, pos, q.enqueue_pos⟩)

/-- Divergence of an `enqueue` call: no amount of fuel makes the retry loop
exit. -/
def MpMcQueue.enqueueDiverges {T : Type} {N : Nat} (q : MpMcQueue T N)
    (item : T) : Prop :=
  ∀ fuel, q.enqueue item fuel = none

/-- Divergence of a `dequeue` call: no amount of fuel makes the retry loop
exit. -/
def MpMcQueue.dequeueDiverges {T : Type} {N : Nat} (q : MpMcQueue T N) : Prop :=
  ∀ fuel, q.dequeue fuel = none

/-- Sequentially enqueue a list of values (one loop iteration each),
requiring every enqueue to be accepted. -/
def enqueueAll {T : Type} {N : Nat} (q : MpMcQueue T N) :
    List T → Option (MpMcQueue T N)
  | [] => some q
  | v :: vs =>
    match q.enqueue v 1 with
    | some (EnqResult.accepted, q1) => enqueueAll q1 vs
    | _ => none

/-- Sequentially dequeue `k` values (one loop iteration each), requiring
every dequeue to yield a value; returns the values in dequeue order. -/
def dequeueTimes {T : Type} {N : Nat} (q : MpMcQueue T N) :
    Nat → Option (List T × MpMcQueue T N)
  | 0 => some ([], q)
  | k + 1 =>
    match q.dequeue 1 with
    | some (DeqResult.value v, q1) =>
      match dequeueTimes q1 k with
      | some (vs, q2) => some (v :: vs, q2)
      | none => none
    | _ => none

/-- One test cycle on a capacity-2 queue of naturals: `enqueue(0)` must be
accepted and the following `dequeue()` must return `Value(0)`. -/
def cycle01 (q : MpMcQueue Nat 2) : Option (MpMcQueue Nat 2) :=
  match q.enqueue 0 1 with
  | some (EnqResult.accepted, q1) =>
    match q1.dequeue 1 with
    | some (DeqResult.value 0, q2) => some q2
    | _ => none
  | _ => none

/-- Iterate `cycle01` a given number of times. -/
def cyclesFrom : Nat → MpMcQueue Nat 2 → Option (MpMcQueue Nat 2)
  | 0, q => some q
  | n + 1, q =>
    match cycle01 q with
    | some q1 => cyclesFrom n q1
    | none => none

/-- A single enqueue that must be accepted (used to chain test scenarios). -/
def enqueueOk {T : Type} {N : Nat} (q : MpMcQueue T N) (v : T) :
    Option (MpMcQueue T N) :=
  match q.enqueue v 1 with
  | some (EnqResult.accepted, q1) => some q1
  | _ => none

/-- State reached after enqueueing the first `j` elements of `all` onto a
fresh queue: `enqueue_pos = j`, `dequeue_pos = 0`, slots `i < j` hold the
`i`-th value with sequence `i + 1`, the remaining slots are untouched. -/
def EnqMid (T : Type) (N : Nat) (all : List T) (j : Nat)
    (q : MpMcQueue T N) : Prop :=
  q.buffer.length = N ∧ q.dequeue_pos = 0 ∧ q.enqueue_pos = j ∧
  ∀ i, i < N → q.buffer.getD i (Cell.new T 0) =
    if i < j then ⟨all.get? i, i + 1⟩ else Cell.new T i

/-- State reached after enqueueing all of `all` onto a fresh queue and then
dequeueing the first `j` of them: `enqueue_pos = all.length`,
`dequeue_pos = j`, dequeued slots republished with sequence `i + N`. -/
def DeqMid (T : Type) (N : Nat) (all : List T) (j : Nat)
    (q : MpMcQueue T N) : Prop :=
  q.buffer.length = N ∧ q.enqueue_pos = all.length ∧ q.dequeue_pos = j ∧
  ∀ i, i < N → q.buffer.getD i (Cell.new T 0) =
    if i < j then ⟨all.get? i, i + N⟩
    else if i < all.length then ⟨all.get? i, i + 1⟩
    else Cell.new T i

/-- Slot `i` currently holds a published, not yet consumed value: there is a
(unique) logical position `p` in the live window `[D, E)` mapping to this
slot; its sequence counter is congruent to `p + 1` mod 256 and its storage
is initialized. -/
def SlotLive (T : Type) (buf : List (Cell T)) (N D E i : Nat) : Prop :=
  ∃ p, D ≤ p ∧ p < E ∧ p % N = i ∧
    (buf.getD i (Cell.new T 0)).sequence % 256 = (p + 1) % 256 ∧
    (buf.getD i (Cell.new T 0)).data ≠ none

/-- Slot `i` is free for the next producer cycle: no live position maps to
it, and its sequence counter is congruent (mod 256) to the first position
`≥ E` mapping to this slot. -/
def SlotFree (T : Type) (buf : List (Cell T)) (N D E i : Nat) : Prop :=
  (∀ p, D ≤ p → p < E → p % N ≠ i) ∧
  ∃ p, E ≤ p ∧ p < E + N ∧ p % N = i ∧
    (buf.getD i (Cell.new T 0)).sequence % 256 = p % 256

/-- Sequential-state invariant: `E` and `D` are the abstract (unwrapped)
numbers of accepted enqueues and completed dequeues; the stored position
counters are their `usize` reductions, the live window has size at most
`N`, and every slot is either live or free. -/
def Inv (T : Type) (N E D : Nat) (q : MpMcQueue T N) : Prop :=
  q.buffer.length = N ∧
  q.enqueue_pos = E % USIZE ∧ q.dequeue_pos = D % USIZE ∧
  D ≤ E ∧ E ≤ D + N ∧
  ∀ i, i < N → SlotLive T q.buffer N D E i ∨ SlotFree T q.buffer N D E i

/-- States reachable from a fresh queue by completed sequential calls,
indexed by the number of accepted enqueues and of value-producing dequeues. -/
inductive Reach (T : Type) (N : Nat) : Nat → Nat → MpMcQueue T N → Prop where
  | init : Reach T N 0 0 (MpMcQueue.new T N)
  | enq_ok {nE nD q item fuel q1} : Reach T N nE nD q →
      q.enqueue item fuel = some (EnqResult.accepted, q1) →
      Reach T N (nE + 1) nD q1
  | enq_full {nE nD q item fuel r q1} : Reach T N nE nD q →
      q.enqueue item fuel = some (EnqResult.rejected r, q1) →
      Reach T N nE nD q1
  | deq_ok {nE nD q fuel v q1} : Reach T N nE nD q →
      q.dequeue fuel = some (DeqResult.value v, q1) →
      Reach T N nE (nD + 1) q1
  | deq_uninit {nE nD q fuel q1} : Reach T N nE nD q →
      q.dequeue fuel = some (DeqResult.uninit, q1) →
      Reach T N nE (nD + 1) q1
  | deq_empty {nE nD q fuel q1} : Reach T N nE nD q →
      q.dequeue fuel = some (DeqResult.empty, q1) →
      Reach T N nE nD q1

/-- Sequential-state invariant for the degenerate capacity-1 queue (where
`MASK = 0`, so every position maps to slot 0): both position counters are
the `usize` reductions of the operation counts, and the single slot's
sequence counter equals whichever position counter advanced last (every
write stores `wrap (pos + 1)`, the same value the advancing counter
takes). -/
def InvOne (T : Type) (nE nD : Nat) (q : MpMcQueue T 1) : Prop :=
  q.buffer.length = 1 ∧
  q.enqueue_pos = nE % USIZE ∧ q.dequeue_pos = nD % USIZE ∧
  ((q.buffer.getD 0 (Cell.new T 0)).sequence = nE % USIZE ∨
    (q.buffer.getD 0 (Cell.new T 0)).sequence = nD % USIZE)

/-- The capacity-1 queue state reached by two consecutive `enqueue(0)` calls
on a fresh queue (both are wrongly accepted; the second overwrites the
first). -/
def q1afterTwo : MpMcQueue Nat 1 := ⟨[⟨some 0, 2⟩], 0, 2⟩

/-- The capacity-256 queue state reached by 256 accepted `enqueue(0)` calls
on a fresh queue (the queue is full). -/
def q256full : MpMcQueue Nat 256 :=
  ⟨(List.range 256).map (fun i => ⟨some 0, i + 1⟩), 0, 256⟩

/-- A full capacity-2 queue state (after `enqueue(1)` and `enqueue(2)` on a
fresh queue). -/
def qFull2 : MpMcQueue Nat 2 := ⟨[⟨some 1, 1⟩, ⟨some 2, 2⟩], 0, 2⟩

/-- The capacity-2 queue state after a single accepted `enqueue(5)` on a
fresh queue. -/
def qOne2 : MpMcQueue Nat 2 := ⟨[⟨some 5, 1⟩, ⟨none, 1⟩], 0, 1⟩

/-!
Helper lemmas: `usize` wrapping, the signed 8-bit difference, list access,
and the uniqueness of a residue in a window of length `N`.
-/

theorem wrap_eq_of_lt {n : Nat} (h : n < USIZE) : wrap n = n :=
  Nat.mod_eq_of_lt h

theorem dvd256_USIZE : (256 : Nat) ∣ USIZE :=
  ⟨2 ^ 56, by norm_num [USIZE]⟩

theorem wrap_mod256 (n : Nat) : wrap n % 256 = n % 256 :=
  Nat.mod_mod_of_dvd n dvd256_USIZE

theorem i8_byte_lt (a b : Nat) : i8_byte a b < 256 :=
  Nat.mod_lt _ (by norm_num)

theorem i8_sub_eq_zero {a b : Nat} (h : a % 256 = b % 256) : i8_sub a b = 0 := by
  have hd : i8_byte a b = 0 := by unfold i8_byte; omega
  unfold i8_sub
  rw [hd]
  norm_num

theorem i8_sub_neg {a b : Nat} (h : 128 ≤ i8_byte a b) : i8_sub a b < 0 := by
  have hlt := i8_byte_lt a b
  unfold i8_sub
  split <;> omega

theorem i8_sub_pos {a b : Nat} (h1 : 1 ≤ i8_byte a b)
    (h2 : i8_byte a b < 128) : 0 < i8_sub a b := by
  unfold i8_sub
  split <;> omega

theorem getD_set_self {α : Type _} (l : List α) {i : Nat} (h : i < l.length)
    (a d : α) : (l.set i a).getD i d = a := by
  rw [List.getD_eq_getElem?_getD, List.getElem?_set_eq_of_lt a h]
  rfl

theorem getD_set_ne {α : Type _} (l : List α) {i j : Nat} (hij : i ≠ j)
    (a d : α) : (l.set i a).getD j d = l.getD j d := by
  rw [List.getD_eq_getElem?_getD, List.getElem?_set_ne hij,
    ← List.getD_eq_getElem?_getD]

theorem mod_eq_of_close {N p e : Nat} (_hN : 0 < N) (hpe : p ≤ e)
    (he : e < p + N) (h : p % N = e % N) : p = e := by
  have hdvd : N ∣ e - p := (Nat.modEq_iff_dvd' hpe).mp h
  have := Nat.eq_zero_of_dvd_of_lt hdvd (by omega)
  omega

theorem and_mask_eq_mod {m N : Nat} (hN : N = 2 ^ m) (pos : Nat) :
    pos &&& mask N = pos % N := by
  subst hN
  unfold mask
  exact Nat.and_pow_two_sub_one_eq_mod pos m

theorem initLoop_length (T : Type) :
    ∀ (r k : Nat) (cells : List (Cell T)),
      (initLoop T r k cells).length = cells.length := by
  intro r
  induction r with
  | zero => intro k cells; rfl
  | succ rr ih =>
    intro k cells
    show (initLoop T rr (k + 1) _).length = _
    rw [ih (k + 1) _, List.length_set]

theorem initLoop_getD (T : Type) :
    ∀ (r k : Nat) (cells : List (Cell T)), k + r ≤ cells.length →
      ∀ (i : Nat) (d : Cell T),
        (initLoop T r k cells).getD i d =
          if k ≤ i ∧ i < k + r then Cell.new T i else cells.getD i d := by
  intro r
  induction r with
  | zero =>
    intro k cells _ i d
    rw [if_neg (by omega)]
    rfl
  | succ rr ih =>
    intro k cells hlen i d
    show (initLoop T rr (k + 1) (cells.set k (Cell.new T k))).getD i d = _
    rw [ih (k + 1) _ (by rw [List.length_set]; omega) i d]
    by_cases h1 : k + 1 ≤ i ∧ i < k + 1 + rr
    · rw [if_pos h1, if_pos (by omega)]
    · rw [if_neg h1]
      by_cases h2 : i = k
      · subst h2
        rw [getD_set_self _ (by omega), if_pos (by omega)]
      · rw [getD_set_ne _ (fun hh => h2 hh.symm), if_neg (by omega)]

theorem new_buffer_length (T : Type) (N : Nat) :
    (MpMcQueue.new T N).buffer.length = N := by
  show (initLoop T N 0 _).length = N
  rw [initLoop_length]
  exact List.length_replicate ..

theorem new_buffer_getD (T : Type) (N : Nat) {i : Nat} (hi : i < N) (d : Cell T) :
    (MpMcQueue.new T N).buffer.getD i d = Cell.new T i := by
  show (initLoop T N 0 _).getD i d = Cell.new T i
  rw [initLoop_getD T N 0 _ (by rw [List.length_replicate]; omega) i d,
    if_pos (by omega)]

/-!
Structural lemmas about the retry loops: a rejected enqueue or an empty
dequeue leaves the state untouched; a successful dequeue claim republishes
the slot; a loop whose very first comparison yields `dif > 0` never exits
in single-actor semantics.
-/

theorem enqueueAux_rejected_eq {T : Type} {msk : Nat} {item : T} :
    ∀ {fuel : Nat} {buffer : List (Cell T)} {epos pos : Nat} {r : T}
      {buf1 : List (Cell T)} {epos1 : Nat},
      enqueueAux T msk item fuel buffer epos pos =
        some (EnqResult.rejected r, buf1, epos1) →
      r = item ∧ buf1 = buffer ∧ epos1 = epos := by
  intro fuel
  induction fuel with
  | zero =>
    intro buffer epos pos r buf1 epos1 h
    simp [enqueueAux] at h
  | succ f ih =>
    intro buffer epos pos r buf1 epos1 h
    rw [enqueueAux] at h
    split at h
    · split at h
      · simp only [Option.some.injEq, Prod.mk.injEq] at h
        exact absurd h.1 (by simp)
      · exact ih h
    · split at h
      · simp only [Option.some.injEq, Prod.mk.injEq, EnqResult.rejected.injEq] at h
        exact ⟨h.1.symm, h.2.1.symm, h.2.2.symm⟩
      · exact ih h

theorem dequeueAux_empty_eq {T : Type} {msk : Nat} :
    ∀ {fuel : Nat} {buffer : List (Cell T)} {dpos pos : Nat}
      {buf1 : List (Cell T)} {dpos1 : Nat},
      dequeueAux T msk fuel buffer dpos pos =
        some (DeqResult.empty, buf1, dpos1) →
      buf1 = buffer ∧ dpos1 = dpos := by
  intro fuel
  induction fuel with
  | zero =>
    intro buffer dpos pos buf1 dpos1 h
    simp [dequeueAux] at h
  | succ f ih =>
    intro buffer dpos pos buf1 dpos1 h
    rw [dequeueAux] at h
    split at h
    · split at h
      · simp only [Option.some.injEq, Prod.mk.injEq] at h
        exact absurd h.1 (by split <;> simp)
      · exact ih h
    · split at h
      · simp only [Option.some.injEq, Prod.mk.injEq] at h
        exact ⟨h.2.1.symm, h.2.2.symm⟩
      · exact ih h

theorem dequeueAux_claimed {T : Type} {msk : Nat} :
    ∀ {fuel : Nat} {buffer : List (Cell T)} {dpos pos : Nat}
      {r : DeqResult T} {buf1 : List (Cell T)} {dpos1 : Nat},
      dequeueAux T msk fuel buffer dpos pos = some (r, buf1, dpos1) →
      r ≠ DeqResult.empty →
      ∃ p, dpos1 = wrap (p + 1) ∧
        buf1 = buffer.set (p &&& msk)
          ⟨(buffer.getD (p &&& msk) (Cell.new T 0)).data,
            wrap (wrap (p + msk) + 1)⟩ := by
  intro fuel
  induction fuel with
  | zero =>
    intro buffer dpos pos r buf1 dpos1 h _
    simp [dequeueAux] at h
  | succ f ih =>
    intro buffer dpos pos r buf1 dpos1 h hr
    rw [dequeueAux] at h
    split at h
    · split at h
      · simp only [Option.some.injEq, Prod.mk.injEq] at h
        exact ⟨pos, h.2.2.symm, h.2.1.symm⟩
      · exact ih h hr
    · split at h
      · simp only [Option.some.injEq, Prod.mk.injEq] at h
        exact absurd h.1.symm hr
      · exact ih h hr

theorem enqueueAux_stuck {T : Type} {msk : Nat} {item : T}
    {buffer : List (Cell T)} {epos : Nat}
    (h : 0 < i8_sub (buffer.getD (epos &&& msk) (Cell.new T 0)).sequence epos) :
    ∀ fuel, enqueueAux T msk item fuel buffer epos epos = none := by
  intro fuel
  induction fuel with
  | zero => rfl
  | succ f ih =>
    rw [enqueueAux]
    rw [if_neg (by omega), if_neg (by omega)]
    exact ih

theorem dequeueAux_stuck {T : Type} {msk : Nat}
    {buffer : List (Cell T)} {dpos : Nat}
    (h : 0 < i8_sub (buffer.getD (dpos &&& msk) (Cell.new T 0)).sequence
      (wrap (dpos + 1))) :
    ∀ fuel, dequeueAux T msk fuel buffer dpos dpos = none := by
  intro fuel
  induction fuel with
  | zero => rfl
  | succ f ih =>
    rw [dequeueAux]
    rw [if_neg (by omega), if_neg (by omega)]
    exact ih

theorem enqueue_diverges_of {T : Type} {N : Nat} {q : MpMcQueue T N} {item : T}
    (h : 0 < i8_sub
      (q.buffer.getD (q.enqueue_pos &&& mask N) (Cell.new T 0)).sequence
      q.enqueue_pos) :
    q.enqueueDiverges item := by
  intro fuel
  unfold MpMcQueue.enqueue
  rw [enqueueAux_stuck h fuel]

theorem dequeue_diverges_of {T : Type} {N : Nat} {q : MpMcQueue T N}
    (h : 0 < i8_sub
      (q.buffer.getD (q.dequeue_pos &&& mask N) (Cell.new T 0)).sequence
      (wrap (q.dequeue_pos + 1))) :
    q.dequeueDiverges := by
  intro fuel
  unfold MpMcQueue.dequeue
  rw [dequeueAux_stuck h fuel]

theorem enqueue_eq_some {T : Type} {N : Nat} {q : MpMcQueue T N} {item : T}
    {fuel : Nat} {r : EnqResult T} {q1 : MpMcQueue T N}
    (h : q.enqueue item fuel = some (r, q1)) :
    ∃ buf pos,
      enqueueAux T (mask N) item fuel q.buffer q.enqueue_pos q.enqueue_pos =
        some (r, buf, pos) ∧ q1 = ⟨buf, q.dequeue_pos, pos⟩ := by
  unfold MpMcQueue.enqueue at h
  cases haux : enqueueAux T (mask N) item fuel q.buffer q.enqueue_pos
      q.enqueue_pos with
  | none => rw [haux] at h; simp at h
  | some p =>
    obtain ⟨r1, buf, pos⟩ := p
    rw [haux] at h
    simp only [Option.some.injEq, Prod.mk.injEq] at h
    obtain ⟨hr, hq⟩ := h
    subst hr
    exact ⟨buf, pos, rfl, hq.symm⟩

theorem dequeue_eq_some {T : Type} {N : Nat} {q : MpMcQueue T N}
    {fuel : Nat} {r : DeqResult T} {q1 : MpMcQueue T N}
    (h : q.dequeue fuel = some (r, q1)) :
    ∃ buf pos,
      dequeueAux T (mask N) fuel q.buffer q.dequeue_pos q.dequeue_pos =
        some (r, buf, pos) ∧ q1 = ⟨buf, pos, q.enqueue_pos⟩ := by
  unfold MpMcQueue.dequeue at h
  cases haux : dequeueAux T (mask N) fuel q.buffer q.dequeue_pos
      q.dequeue_pos with
  | none => rw [haux] at h; simp at h
  | some p =>
    obtain ⟨r1, buf, pos⟩ := p
    rw [haux] at h
    simp only [Option.some.injEq, Prod.mk.injEq] at h
    obtain ⟨hr, hq⟩ := h
    subst hr
    exact ⟨buf, pos, rfl, hq.symm⟩

/-!
Sequential scenario lemmas: enqueueing a list onto a fresh queue, then
dequeueing it back.  All positions involved stay below the capacity, so the
`usize` wrap is the identity and the byte comparison always sees equal
residues.
-/

theorem EnqMid_new (T : Type) (N : Nat) (all : List T) :
    EnqMid T N all 0 (MpMcQueue.new T N) := by
  refine ⟨new_buffer_length T N, rfl, rfl, ?_⟩
  intro i hi
  rw [new_buffer_getD T N hi, if_neg (by omega)]

theorem enq_step_mid {T : Type} {m N : Nat} (hN : N = 2 ^ m) (hm : m ≤ 63)
    (all : List T) (hlen : all.length ≤ N) {j : Nat} (hj : j < all.length)
    {q : MpMcQueue T N} (hq : EnqMid T N all j q) {v : T}
    (hv : all.get? j = some v) (f : Nat) :
    ∃ q1, q.enqueue v (f + 1) = some (EnqResult.accepted, q1) ∧
      EnqMid T N all (j + 1) q1 := by
  obtain ⟨hbl, hdp, hep, hslots⟩ := hq
  have hjN : j < N := lt_of_lt_of_le hj hlen
  have hNle : N ≤ 2 ^ 63 := by
    subst hN
    exact Nat.pow_le_pow_right (by norm_num) hm
  have hU : j + 1 < USIZE := by
    have h64 : (2 : Nat) ^ 63 < 2 ^ 64 := by norm_num
    unfold USIZE
    omega
  have hidx : j &&& mask N = j := by
    rw [and_mask_eq_mod hN, Nat.mod_eq_of_lt hjN]
  have hcell : q.buffer.getD j (Cell.new T 0) = Cell.new T j := by
    rw [hslots j hjN, if_neg (lt_irrefl j)]
  have haux : enqueueAux T (mask N) v (f + 1) q.buffer q.enqueue_pos
      q.enqueue_pos =
      some (EnqResult.accepted, q.buffer.set j ⟨some v, j + 1⟩, j + 1) := by
    rw [hep]
    rw [enqueueAux]
    rw [hidx, hcell]
    rw [show (Cell.new T j).sequence = j from rfl]
    rw [i8_sub_eq_zero rfl, if_pos rfl, if_pos rfl]
    rw [wrap_eq_of_lt hU]
  refine ⟨⟨q.buffer.set j ⟨some v, j + 1⟩, q.dequeue_pos, j + 1⟩, ?_, ?_⟩
  · unfold MpMcQueue.enqueue
    rw [haux]
  · refine ⟨by rw [List.length_set]; exact hbl, hdp, rfl, ?_⟩
    intro i hi
    by_cases hij : i = j
    · subst hij
      rw [getD_set_self _ (by rw [hbl]; exact hjN), if_pos (by omega), hv]
    · rw [getD_set_ne _ (Ne.symm hij), hslots i hi]
      by_cases h1 : i < j
      · rw [if_pos h1, if_pos (by omega)]
      · rw [if_neg h1, if_neg (by omega)]

theorem enqueueAll_mid {T : Type} {m N : Nat} (hN : N = 2 ^ m) (hm : m ≤ 63)
    (all : List T) (hlen : all.length ≤ N) :
    ∀ (rest : List T) (j : Nat) (q : MpMcQueue T N),
      j + rest.length = all.length → all.drop j = rest →
      EnqMid T N all j q →
      ∃ q1, enqueueAll q rest = some q1 ∧ EnqMid T N all all.length q1 := by
  intro rest
  induction rest with
  | nil =>
    intro j q hj _ hq
    have hj' : j = all.length := by simpa using hj
    subst hj'
    exact ⟨q, rfl, hq⟩
  | cons v rest ih =>
    intro j q hj hdrop hq
    rw [List.length_cons] at hj
    have hjl : j < all.length := by omega
    have hv : all.get? j = some v := by
      rw [List.get?_eq_getElem?]
      have hd := List.getElem?_drop all j 0
      rw [Nat.add_zero] at hd
      rw [← hd, hdrop]
      simp
    obtain ⟨q1, hstep, hmid⟩ := enq_step_mid hN hm all hlen hjl hq hv 0
    have hdrop1 : all.drop (j + 1) = rest := by
      have h1 := List.drop_drop 1 j all
      rw [hdrop] at h1
      exact h1.symm
    obtain ⟨q2, hall, hfin⟩ := ih (j + 1) q1 (by omega) hdrop1 hmid
    refine ⟨q2, ?_, hfin⟩
    show enqueueAll q (v :: rest) = some q2
    unfold enqueueAll
    rw [hstep]
    exact hall

theorem enq_full_reject_mid {T : Type} {m N : Nat} (hN : N = 2 ^ m)
    (hm1 : 1 ≤ m) (hm7 : m ≤ 7) (all : List T) (hlen : all.length = N)
    {q : MpMcQueue T N} (hq : EnqMid T N all N q) (v : T) (f : Nat) :
    q.enqueue v (f + 1) = some (EnqResult.rejected v, q) := by
  obtain ⟨hbl, hdp, hep, hslots⟩ := hq
  have hN2 : 2 ≤ N := by
    subst hN
    calc 2 = 2 ^ 1 := by norm_num
    _ ≤ 2 ^ m := Nat.pow_le_pow_right (by norm_num) hm1
  have hN128 : N ≤ 128 := by
    subst hN
    calc 2 ^ m ≤ 2 ^ 7 := Nat.pow_le_pow_right (by norm_num) hm7
    _ = 128 := by norm_num
  have hidx : q.enqueue_pos &&& mask N = 0 := by
    rw [hep, and_mask_eq_mod hN, Nat.mod_self]
  have hcell : q.buffer.getD 0 (Cell.new T 0) = ⟨all.get? 0, 1⟩ := by
    rw [hslots 0 (by omega), if_pos (by omega)]
  have hdif : i8_sub
      (q.buffer.getD (q.enqueue_pos &&& mask N) (Cell.new T 0)).sequence
      q.enqueue_pos < 0 := by
    rw [hidx, hcell, hep]
    apply i8_sub_neg
    show 128 ≤ i8_byte 1 N
    unfold i8_byte
    omega
  unfold MpMcQueue.enqueue
  rw [enqueueAux]
  rw [if_neg (by omega), if_pos hdif]

/-- C2 (amended): the capacity bound holds for every power-of-two capacity
`N = 2 ^ m` with `1 ≤ m ≤ 7` (that is, `2 ≤ N ≤ 128`): every list of `N`
values is accepted by `N` consecutive enqueues on a fresh queue, and the
`(N+1)`-th enqueue of any value `v` is rejected, returns exactly `v`, and
leaves the queue unchanged. -/
theorem C2_capacity_bound {T : Type} (m N : Nat) (all : List T) (v : T)
    (hN : N = 2 ^ m) (hm1 : 1 ≤ m) (hm7 : m ≤ 7) (hlen : all.length = N) :
    ∃ q1, enqueueAll (MpMcQueue.new T N) all = some q1 ∧
      q1.enqueue v 1 = some (EnqResult.rejected v, q1) := by
  obtain ⟨q1, hall, hmid⟩ := enqueueAll_mid hN (by omega) all (le_of_eq hlen)
    all 0 (MpMcQueue.new T N) (by simp) rfl (EnqMid_new T N all)
  refine ⟨q1, hall, ?_⟩
  exact enq_full_reject_mid hN hm1 hm7 all hlen (hlen ▸ hmid) v 0

/-- C2 witness: the amended capacity bound evaluated at `N = 2` with the
list `[3, 4]` and rejected value `9`. -/
theorem C2_capacity_bound_witness :
    ∃ q1, enqueueAll (MpMcQueue.new Nat 2) [3, 4] = some q1 ∧
      q1.enqueue 9 1 = some (EnqResult.rejected 9, q1) :=
  C2_capacity_bound 1 2 [3, 4] 9 (by norm_num) le_rfl (by norm_num) rfl

theorem deq_step_mid {T : Type} {m N : Nat} (hN : N = 2 ^ m) (hm : m ≤ 63)
    (all : List T) (hlen : all.length ≤ N) {j : Nat} (hj : j < all.length)
    {q : MpMcQueue T N} (hq : DeqMid T N all j q) {v : T}
    (hv : all.get? j = some v) (f : Nat) :
    ∃ q1, q.dequeue (f + 1) = some (DeqResult.value v, q1) ∧
      DeqMid T N all (j + 1) q1 := by
  obtain ⟨hbl, hep, hdp, hslots⟩ := hq
  have hjN : j < N := lt_of_lt_of_le hj hlen
  have hN1 : 1 ≤ N := by subst hN; exact Nat.one_le_two_pow
  have hNle : N ≤ 2 ^ 63 := by
    subst hN
    exact Nat.pow_le_pow_right (by norm_num) hm
  have h64 : (2 : Nat) ^ 63 < 2 ^ 64 := by norm_num
  have hU : j + 1 < USIZE := by unfold USIZE; omega
  have hUm : j + mask N < USIZE := by unfold USIZE mask; omega
  have hidx : j &&& mask N = j := by
    rw [and_mask_eq_mod hN, Nat.mod_eq_of_lt hjN]
  have hcell : q.buffer.getD j (Cell.new T 0) = ⟨all.get? j, j + 1⟩ := by
    rw [hslots j hjN, if_neg (lt_irrefl j), if_pos hj]
  have hseq : wrap (wrap (j + mask N) + 1) = j + N := by
    rw [wrap_eq_of_lt hUm, wrap_eq_of_lt (by unfold USIZE mask at *; omega)]
    unfold mask
    omega
  have haux : dequeueAux T (mask N) (f + 1) q.buffer q.dequeue_pos
      q.dequeue_pos =
      some (DeqResult.value v, q.buffer.set j ⟨all.get? j, j + N⟩, j + 1) := by
    rw [hdp]
    rw [dequeueAux]
    rw [hidx, hcell]
    rw [show ((⟨all.get? j, j + 1⟩ : Cell T)).sequence = j + 1 from rfl]
    rw [wrap_eq_of_lt hU]
    rw [i8_sub_eq_zero rfl, if_pos rfl, if_pos rfl]
    rw [show ((⟨all.get? j, j + 1⟩ : Cell T)).data = all.get? j from rfl]
    rw [hseq, hv]
  refine ⟨⟨q.buffer.set j ⟨all.get? j, j + N⟩, j + 1, q.enqueue_pos⟩, ?_, ?_⟩
  · unfold MpMcQueue.dequeue
    rw [haux]
  · refine ⟨by rw [List.length_set]; exact hbl, hep, rfl, ?_⟩
    intro i hi
    by_cases hij : i = j
    · subst hij
      rw [getD_set_self _ (by rw [hbl]; exact hjN), if_pos (by omega)]
    · rw [getD_set_ne _ (Ne.symm hij), hslots i hi]
      by_cases h1 : i < j
      · rw [if_pos h1, if_pos (show i < j + 1 by omega)]
      · rw [if_neg h1, if_neg (show ¬(i < j + 1) by omega)]

theorem dequeueTimes_mid {T : Type} {m N : Nat} (hN : N = 2 ^ m)
    (hm : m ≤ 63) (all : List T) (hlen : all.length ≤ N) :
    ∀ (k j : Nat) (q : MpMcQueue T N), j + k = all.length →
      DeqMid T N all j q →
      ∃ q2, dequeueTimes q k = some (all.drop j, q2) ∧
        DeqMid T N all all.length q2 := by
  intro k
  induction k with
  | zero =>
    intro j q hj hq
    have hj' : j = all.length := by omega
    subst hj'
    rw [List.drop_length]
    exact ⟨q, rfl, hq⟩
  | succ kk ih =>
    intro j q hj hq
    have hjl : j < all.length := by omega
    obtain ⟨v, hv⟩ : ∃ v, all.get? j = some v := by
      rw [List.get?_eq_getElem?]
      exact ⟨_, List.getElem?_eq_getElem hjl⟩
    obtain ⟨q1, hstep, hmid1⟩ := deq_step_mid hN hm all hlen hjl hq hv 0
    obtain ⟨q2, hrest, hfin⟩ := ih (j + 1) q1 (by omega) hmid1
    refine ⟨q2, ?_, hfin⟩
    have hdropj : all.drop j = v :: all.drop (j + 1) := by
      rw [List.drop_eq_getElem_cons hjl]
      have hv2 : all[j] = v := by
        have := List.getElem?_eq_getElem hjl
        rw [List.get?_eq_getElem?, this] at hv
        exact Option.some.inj hv
      rw [hv2]
    show dequeueTimes q (kk + 1) = some (all.drop j, q2)
    unfold dequeueTimes
    rw [hstep]
    show (match dequeueTimes q1 kk with
      | some (vs, q3) => some (v :: vs, q3)
      | none => none) = some (all.drop j, q2)
    rw [hrest, hdropj]

/-- C5: FIFO ordering without interleaving — for every power-of-two capacity
`N = 2 ^ m` (with `m ≤ 63`, so that positions fit in `usize`) and every list
`vs` of at most `N` values, enqueueing all of `vs` on a fresh queue succeeds,
and `vs.length` subsequent dequeues return exactly `vs` in order. -/
theorem C5_fifo_order {T : Type} (m N : Nat) (vs : List T)
    (hN : N = 2 ^ m) (hm : m ≤ 63) (hlen : vs.length ≤ N) :
    ∃ q1 q2, enqueueAll (MpMcQueue.new T N) vs = some q1 ∧
      dequeueTimes q1 vs.length = some (vs, q2) := by
  obtain ⟨q1, hall, hmidE⟩ := enqueueAll_mid hN hm vs hlen vs 0
    (MpMcQueue.new T N) (by simp) rfl (EnqMid_new T N vs)
  have hmidD : DeqMid T N vs 0 q1 := by
    obtain ⟨h1, h2, h3, h4⟩ := hmidE
    refine ⟨h1, h3, h2, ?_⟩
    intro i hi
    rw [h4 i hi, if_neg (show ¬(i < 0) by omega)]
  obtain ⟨q2, hdeq, _⟩ := dequeueTimes_mid hN hm vs hlen vs.length 0 q1
    (by omega) hmidD
  exact ⟨q1, q2, hall, by simpa using hdeq⟩

/-- C5 witness: FIFO ordering evaluated at `N = 4` with the list
`[3, 4, 5]`. -/
theorem C5_fifo_order_witness :
    ∃ q1 q2, enqueueAll (MpMcQueue.new Nat 4) [3, 4, 5] = some q1 ∧
      dequeueTimes q1 3 = some ([3, 4, 5], q2) :=
  C5_fifo_order 2 4 [3, 4, 5] (by norm_num) (by norm_num) (by norm_num)

/-!
Invariant machinery for reachable states: a fresh queue satisfies `Inv`,
and every completed sequential call preserves it.  `E` and `D` are the
abstract (unwrapped) operation counters.
-/

theorem Inv_new (T : Type) {m N : Nat} (hN : N = 2 ^ m) :
    Inv T N 0 0 (MpMcQueue.new T N) := by
  refine ⟨new_buffer_length T N, (Nat.zero_mod _).symm, (Nat.zero_mod _).symm,
    le_rfl, by omega, ?_⟩
  intro i hi
  right
  refine ⟨fun p hp1 hp2 => absurd hp2 (by omega), i, by omega, by omega,
    Nat.mod_eq_of_lt hi, ?_⟩
  rw [new_buffer_getD T N hi]
  rfl

theorem enq_step_accept {T : Type} {m N E D : Nat} (hN : N = 2 ^ m)
    (hm64 : m ≤ 64) {q : MpMcQueue T N} (hInv : Inv T N E D q)
    (hlt : E < D + N) (item : T) (f : Nat) :
    ∃ q1, q.enqueue item (f + 1) = some (EnqResult.accepted, q1) ∧
      Inv T N (E + 1) D q1 := by
  obtain ⟨hbl, hep, hdp, hDE, hED, hslots⟩ := hInv
  have hN0 : 0 < N := by subst hN; exact Nat.one_le_two_pow
  have hNdvd : N ∣ USIZE := by subst hN; unfold USIZE; exact pow_dvd_pow 2 hm64
  have hiN : E % N < N := Nat.mod_lt _ hN0
  have hidx : q.enqueue_pos &&& mask N = E % N := by
    rw [hep, and_mask_eq_mod hN, Nat.mod_mod_of_dvd _ hNdvd]
  have hfree : (q.buffer.getD (E % N) (Cell.new T 0)).sequence % 256 =
      E % 256 := by
    rcases hslots (E % N) hiN with ⟨p, h1, h2, h3, h4, h5⟩ |
      ⟨hnl, p, h1, h2, h3, h4⟩
    · exfalso
      have hpE : p = E :=
        mod_eq_of_close hN0 (le_of_lt h2) (by omega) (by rw [h3])
      omega
    · have hEp : E = p := mod_eq_of_close hN0 h1 h2 (by rw [h3])
      rw [← hEp] at h4
      exact h4
  have hdif : i8_sub
      (q.buffer.getD (q.enqueue_pos &&& mask N) (Cell.new T 0)).sequence
      q.enqueue_pos = 0 := by
    rw [hidx, hep]
    apply i8_sub_eq_zero
    rw [hfree]
    rw [Nat.mod_mod_of_dvd _ dvd256_USIZE]
  have haux : enqueueAux T (mask N) item (f + 1) q.buffer q.enqueue_pos
      q.enqueue_pos =
      some (EnqResult.accepted,
        q.buffer.set (E % N) ⟨some item, wrap (q.enqueue_pos + 1)⟩,
        wrap (q.enqueue_pos + 1)) := by
    rw [enqueueAux]
    rw [hdif, if_pos rfl, if_pos rfl, hidx]
  refine ⟨⟨q.buffer.set (E % N) ⟨some item, wrap (q.enqueue_pos + 1)⟩,
    q.dequeue_pos, wrap (q.enqueue_pos + 1)⟩, ?_, ?_⟩
  · unfold MpMcQueue.enqueue
    rw [haux]
  · refine ⟨by rw [List.length_set]; exact hbl, ?_, hdp, by omega, by omega,
      ?_⟩
    · show wrap (q.enqueue_pos + 1) = (E + 1) % USIZE
      rw [hep]
      show (E % USIZE + 1) % USIZE = (E + 1) % USIZE
      unfold USIZE
      omega
    · intro i2 hi2
      by_cases hii : i2 = E % N
      · subst hii
        left
        refine ⟨E, hDE, by omega, rfl, ?_, ?_⟩
        · rw [getD_set_self _ (by rw [hbl]; exact hiN)]
          show wrap (q.enqueue_pos + 1) % 256 = (E + 1) % 256
          rw [wrap_mod256, hep]
          have h1 : E % USIZE % 256 = E % 256 :=
            Nat.mod_mod_of_dvd _ dvd256_USIZE
          omega
        · rw [getD_set_self _ (by rw [hbl]; exact hiN)]
          simp
      · have hgd : (q.buffer.set (E % N)
            ⟨some item, wrap (q.enqueue_pos + 1)⟩).getD i2 (Cell.new T 0) =
            q.buffer.getD i2 (Cell.new T 0) :=
          getD_set_ne _ (fun hh => hii hh.symm) _ _
        rcases hslots i2 hi2 with ⟨p, h1, h2, h3, h4, h5⟩ |
          ⟨hnl, p, h1, h2, h3, h4⟩
        · left
          exact ⟨p, h1, by omega, h3, by rw [hgd]; exact h4,
            by rw [hgd]; exact h5⟩
        · right
          have hpneE : p ≠ E := by
            intro hh
            apply hii
            rw [← h3, hh]
          refine ⟨?_, p, by omega, by omega, h3, by rw [hgd]; exact h4⟩
          intro p2 hp2a hp2b
          by_cases hp2 : p2 = E
          · subst hp2
            exact fun hcon => hii hcon.symm
          · exact hnl p2 hp2a (by omega)

theorem enq_step_reject {T : Type} {m N E D : Nat} (hN : N = 2 ^ m)
    (hm1 : 1 ≤ m) (hm7 : m ≤ 7) {q : MpMcQueue T N} (hInv : Inv T N E D q)
    (heq : E = D + N) (item : T) (f : Nat) :
    q.enqueue item (f + 1) = some (EnqResult.rejected item, q) := by
  obtain ⟨hbl, hep, hdp, hDE, hED, hslots⟩ := hInv
  have hN2 : 2 ≤ N := by
    subst hN
    calc 2 = 2 ^ 1 := by norm_num
    _ ≤ 2 ^ m := Nat.pow_le_pow_right (by norm_num) hm1
  have hN128 : N ≤ 128 := by
    subst hN
    calc 2 ^ m ≤ 2 ^ 7 := Nat.pow_le_pow_right (by norm_num) hm7
    _ = 128 := by norm_num
  have hN0 : 0 < N := by omega
  have hNdvd : N ∣ USIZE := by
    subst hN
    unfold USIZE
    exact pow_dvd_pow 2 (by omega)
  have hiN : E % N < N := Nat.mod_lt _ hN0
  have hidx : q.enqueue_pos &&& mask N = E % N := by
    rw [hep, and_mask_eq_mod hN, Nat.mod_mod_of_dvd _ hNdvd]
  have hDN : D % N = E % N := by
    rw [heq]
    exact (Nat.add_mod_right D N).symm
  have hlive : (q.buffer.getD (E % N) (Cell.new T 0)).sequence % 256 =
      (D + 1) % 256 := by
    rcases hslots (E % N) hiN with ⟨p, h1, h2, h3, h4, h5⟩ |
      ⟨hnl, p, h1, h2, h3, h4⟩
    · have hpD : D = p := mod_eq_of_close hN0 h1 (by omega) (by rw [hDN, h3])
      rw [← hpD] at h4
      exact h4
    · exact absurd hDN (hnl D le_rfl (by omega))
  have hdif : i8_sub
      (q.buffer.getD (q.enqueue_pos &&& mask N) (Cell.new T 0)).sequence
      q.enqueue_pos < 0 := by
    rw [hidx, hep]
    apply i8_sub_neg
    unfold i8_byte
    have h1 : E % USIZE % 256 = E % 256 := Nat.mod_mod_of_dvd _ dvd256_USIZE
    omega
  unfold MpMcQueue.enqueue
  rw [enqueueAux]
  rw [if_neg (by omega), if_pos hdif]

theorem enq_step_stuck {T : Type} {m N E D : Nat} (hN : N = 2 ^ m)
    (hm8 : 8 ≤ m) (hm64 : m ≤ 64) {q : MpMcQueue T N} (hInv : Inv T N E D q)
    (heq : E = D + N) (item : T) : q.enqueueDiverges item := by
  obtain ⟨hbl, hep, hdp, hDE, hED, hslots⟩ := hInv
  have hN0 : 0 < N := by subst hN; exact Nat.one_le_two_pow
  have hNdvd : N ∣ USIZE := by subst hN; unfold USIZE; exact pow_dvd_pow 2 hm64
  have h256N : (256 : Nat) ∣ N := by
    subst hN
    have h := pow_dvd_pow 2 hm8
    norm_num at h
    exact h
  have hiN : E % N < N := Nat.mod_lt _ hN0
  have hidx : q.enqueue_pos &&& mask N = E % N := by
    rw [hep, and_mask_eq_mod hN, Nat.mod_mod_of_dvd _ hNdvd]
  have hDN : D % N = E % N := by
    rw [heq]
    exact (Nat.add_mod_right D N).symm
  have hlive : (q.buffer.getD (E % N) (Cell.new T 0)).sequence % 256 =
      (D + 1) % 256 := by
    rcases hslots (E % N) hiN with ⟨p, h1, h2, h3, h4, h5⟩ |
      ⟨hnl, p, h1, h2, h3, h4⟩
    · have hpD : D = p := mod_eq_of_close hN0 h1 (by omega) (by rw [hDN, h3])
      rw [← hpD] at h4
      exact h4
    · exact absurd hDN (hnl D le_rfl (by omega))
  apply enqueue_diverges_of
  rw [hidx, hep]
  apply i8_sub_pos
  · unfold i8_byte
    have h1 : E % USIZE % 256 = E % 256 := Nat.mod_mod_of_dvd _ dvd256_USIZE
    omega
  · unfold i8_byte
    have h1 : E % USIZE % 256 = E % 256 := Nat.mod_mod_of_dvd _ dvd256_USIZE
    omega

theorem deq_step_value {T : Type} {m N E D : Nat} (hN : N = 2 ^ m)
    (hm64 : m ≤ 64) {q : MpMcQueue T N} (hInv : Inv T N E D q)
    (hlt : D < E) (f : Nat) :
    ∃ v q1, q.dequeue (f + 1) = some (DeqResult.value v, q1) ∧
      Inv T N E (D + 1) q1 := by
  obtain ⟨hbl, hep, hdp, hDE, hED, hslots⟩ := hInv
  have hN0 : 0 < N := by subst hN; exact Nat.one_le_two_pow
  have hNdvd : N ∣ USIZE := by subst hN; unfold USIZE; exact pow_dvd_pow 2 hm64
  have hiN : D % N < N := Nat.mod_lt _ hN0
  have hidx : q.dequeue_pos &&& mask N = D % N := by
    rw [hdp, and_mask_eq_mod hN, Nat.mod_mod_of_dvd _ hNdvd]
  obtain ⟨p, h1, h2, h3, h4, h5⟩ :
      SlotLive T q.buffer N D E (D % N) := by
    rcases hslots (D % N) hiN with hl | ⟨hnl, _⟩
    · exact hl
    · exact absurd rfl (hnl D le_rfl hlt)
  have hpD : D = p := mod_eq_of_close hN0 h1 (by omega) (by rw [h3])
  subst hpD
  obtain ⟨v, hv⟩ : ∃ v,
      (q.buffer.getD (D % N) (Cell.new T 0)).data = some v := by
    cases hdata : (q.buffer.getD (D % N) (Cell.new T 0)).data with
    | none => exact absurd hdata h5
    | some v => exact ⟨v, rfl⟩
  have hdifz : i8_sub
      (q.buffer.getD (q.dequeue_pos &&& mask N) (Cell.new T 0)).sequence
      (wrap (q.dequeue_pos + 1)) = 0 := by
    rw [hidx, hdp]
    apply i8_sub_eq_zero
    rw [h4, wrap_mod256]
    have h1q : D % USIZE % 256 = D % 256 := Nat.mod_mod_of_dvd _ dvd256_USIZE
    omega
  have haux : dequeueAux T (mask N) (f + 1) q.buffer q.dequeue_pos
      q.dequeue_pos =
      some (DeqResult.value v,
        q.buffer.set (D % N)
          ⟨some v, wrap (wrap (q.dequeue_pos + mask N) + 1)⟩,
        wrap (q.dequeue_pos + 1)) := by
    rw [dequeueAux]
    rw [hdifz, if_pos rfl, if_pos rfl, hidx, hv]
  have hseqval : wrap (wrap (q.dequeue_pos + mask N) + 1) % 256 =
      (D + N) % 256 := by
    rw [hdp, wrap_mod256]
    have hmm := wrap_mod256 (D % USIZE + mask N)
    have h1q : D % USIZE % 256 = D % 256 := Nat.mod_mod_of_dvd _ dvd256_USIZE
    have hmask : mask N = N - 1 := rfl
    omega
  refine ⟨v, ⟨q.buffer.set (D % N)
      ⟨some v, wrap (wrap (q.dequeue_pos + mask N) + 1)⟩,
    wrap (q.dequeue_pos + 1), q.enqueue_pos⟩, ?_, ?_⟩
  · unfold MpMcQueue.dequeue
    rw [haux]
  · refine ⟨by rw [List.length_set]; exact hbl, hep, ?_, by omega, by omega,
      ?_⟩
    · show wrap (q.dequeue_pos + 1) = (D + 1) % USIZE
      rw [hdp]
      show (D % USIZE + 1) % USIZE = (D + 1) % USIZE
      unfold USIZE
      omega
    · intro i2 hi2
      by_cases hii : i2 = D % N
      · subst hii
        right
        constructor
        · intro p2 hp2a hp2b hp2m
          have hp2D : D = p2 :=
            mod_eq_of_close hN0 (by omega) (by omega) (by rw [hp2m])
          omega
        · refine ⟨D + N, by omega, by omega, Nat.add_mod_right D N, ?_⟩
          rw [getD_set_self _ (by rw [hbl]; exact hiN)]
          exact hseqval
      · have hgd : (q.buffer.set (D % N)
            ⟨some v, wrap (wrap (q.dequeue_pos + mask N) + 1)⟩).getD i2
            (Cell.new T 0) = q.buffer.getD i2 (Cell.new T 0) :=
          getD_set_ne _ (fun hh => hii hh.symm) _ _
        rcases hslots i2 hi2 with ⟨p2, g1, g2, g3, g4, g5⟩ |
          ⟨hnl, p2, g1, g2, g3, g4⟩
        · left
          have hne : p2 ≠ D := by
            intro hh
            apply hii
            rw [← g3, hh]
          exact ⟨p2, by omega, g2, g3, by rw [hgd]; exact g4,
            by rw [hgd]; exact g5⟩
        · right
          exact ⟨fun p3 hp3a hp3b => hnl p3 (by omega) hp3b, p2, g1, g2, g3,
            by rw [hgd]; exact g4⟩

theorem deq_step_empty {T : Type} {m N E : Nat} (hN : N = 2 ^ m)
    (hm64 : m ≤ 64) {q : MpMcQueue T N} (hInv : Inv T N E E q) (f : Nat) :
    q.dequeue (f + 1) = some (DeqResult.empty, q) := by
  obtain ⟨hbl, hep, hdp, _, _, hslots⟩ := hInv
  have hN0 : 0 < N := by subst hN; exact Nat.one_le_two_pow
  have hNdvd : N ∣ USIZE := by subst hN; unfold USIZE; exact pow_dvd_pow 2 hm64
  have hiN : E % N < N := Nat.mod_lt _ hN0
  have hidx : q.dequeue_pos &&& mask N = E % N := by
    rw [hdp, and_mask_eq_mod hN, Nat.mod_mod_of_dvd _ hNdvd]
  have hfree : (q.buffer.getD (E % N) (Cell.new T 0)).sequence % 256 =
      E % 256 := by
    rcases hslots (E % N) hiN with ⟨p, h1, h2, _, _, _⟩ |
      ⟨_, p, h1, h2, h3, h4⟩
    · omega
    · have hEp : E = p := mod_eq_of_close hN0 h1 h2 (by rw [h3])
      rw [← hEp] at h4
      exact h4
  have hdif : i8_sub
      (q.buffer.getD (q.dequeue_pos &&& mask N) (Cell.new T 0)).sequence
      (wrap (q.dequeue_pos + 1)) < 0 := by
    rw [hidx, hdp]
    apply i8_sub_neg
    unfold i8_byte
    have h1 : E % USIZE % 256 = E % 256 := Nat.mod_mod_of_dvd _ dvd256_USIZE
    have h2 := wrap_mod256 (E % USIZE + 1)
    omega
  unfold MpMcQueue.dequeue
  rw [dequeueAux]
  rw [if_neg (by omega), if_pos hdif]

theorem reach_inv {T : Type} {m N : Nat} (hN : N = 2 ^ m) (hm1 : 1 ≤ m)
    (hm64 : m ≤ 64) :
    ∀ {nE nD : Nat} {q : MpMcQueue T N}, Reach T N nE nD q →
      Inv T N nE nD q := by
  intro nE nD q h
  induction h with
  | init => exact Inv_new T hN
  | @enq_ok nE nD q item fuel q1 hr henq ih =>
    rcases Nat.lt_or_ge nE (nD + N) with hlt | hge
    · cases fuel with
      | zero => exact absurd henq (by simp [MpMcQueue.enqueue, enqueueAux])
      | succ f =>
        obtain ⟨q1x, haux, hinv⟩ := enq_step_accept hN hm64 ih hlt item f
        rw [haux] at henq
        simp only [Option.some.injEq, Prod.mk.injEq, true_and] at henq
        rw [← henq]
        exact hinv
    · have heq : nE = nD + N := by
        have := ih.2.2.2.2.1
        omega
      rcases le_or_lt m 7 with hm7 | hm8
      · cases fuel with
        | zero => exact absurd henq (by simp [MpMcQueue.enqueue, enqueueAux])
        | succ f =>
          have hrej := enq_step_reject hN hm1 hm7 ih heq item f
          rw [hrej] at henq
          simp at henq
      · have hstuck := enq_step_stuck hN (by omega) hm64 ih heq item
        rw [hstuck fuel] at henq
        exact Option.noConfusion henq
  | @enq_full nE nD q item fuel r q1 hr henq ih =>
    rcases Nat.lt_or_ge nE (nD + N) with hlt | hge
    · cases fuel with
      | zero => exact absurd henq (by simp [MpMcQueue.enqueue, enqueueAux])
      | succ f =>
        obtain ⟨q1x, haux, hinv⟩ := enq_step_accept hN hm64 ih hlt item f
        rw [haux] at henq
        simp at henq
    · have heq : nE = nD + N := by
        have := ih.2.2.2.2.1
        omega
      rcases le_or_lt m 7 with hm7 | hm8
      · cases fuel with
        | zero => exact absurd henq (by simp [MpMcQueue.enqueue, enqueueAux])
        | succ f =>
          have hrej := enq_step_reject hN hm1 hm7 ih heq item f
          rw [hrej] at henq
          simp only [Option.some.injEq, Prod.mk.injEq,
            EnqResult.rejected.injEq] at henq
          rw [← henq.2]
          exact ih
      · have hstuck := enq_step_stuck hN (by omega) hm64 ih heq item
        rw [hstuck fuel] at henq
        exact Option.noConfusion henq
  | @deq_ok nE nD q fuel v q1 hr hdeq ih =>
    rcases Nat.lt_or_ge nD nE with hlt | hge
    · cases fuel with
      | zero => exact absurd hdeq (by simp [MpMcQueue.dequeue, dequeueAux])
      | succ f =>
        obtain ⟨vx, q1x, haux, hinv⟩ := deq_step_value hN hm64 ih hlt f
        rw [haux] at hdeq
        simp only [Option.some.injEq, Prod.mk.injEq,
          DeqResult.value.injEq] at hdeq
        rw [← hdeq.2]
        exact hinv
    · have heq : nD = nE := by
        have := ih.2.2.2.1
        omega
      rw [heq] at ih ⊢
      cases fuel with
      | zero => exact absurd hdeq (by simp [MpMcQueue.dequeue, dequeueAux])
      | succ f =>
        have hemp := deq_step_empty hN hm64 ih f
        rw [hemp] at hdeq
        simp at hdeq
  | @deq_uninit nE nD q fuel q1 hr hdeq ih =>
    rcases Nat.lt_or_ge nD nE with hlt | hge
    · cases fuel with
      | zero => exact absurd hdeq (by simp [MpMcQueue.dequeue, dequeueAux])
      | succ f =>
        obtain ⟨vx, q1x, haux, hinv⟩ := deq_step_value hN hm64 ih hlt f
        rw [haux] at hdeq
        simp at hdeq
    · have heq : nD = nE := by
        have := ih.2.2.2.1
        omega
      rw [heq] at ih ⊢
      cases fuel with
      | zero => exact absurd hdeq (by simp [MpMcQueue.dequeue, dequeueAux])
      | succ f =>
        have hemp := deq_step_empty hN hm64 ih f
        rw [hemp] at hdeq
        simp at hdeq
  | @deq_empty nE nD q fuel q1 hr hdeq ih =>
    rcases Nat.lt_or_ge nD nE with hlt | hge
    · cases fuel with
      | zero => exact absurd hdeq (by simp [MpMcQueue.dequeue, dequeueAux])
      | succ f =>
        obtain ⟨vx, q1x, haux, hinv⟩ := deq_step_value hN hm64 ih hlt f
        rw [haux] at hdeq
        simp at hdeq
    · have heq : nD = nE := by
        have := ih.2.2.2.1
        omega
      cases fuel with
      | zero => exact absurd hdeq (by simp [MpMcQueue.dequeue, dequeueAux])
      | succ f =>
        have ih2 : Inv T N nE nE q := heq ▸ ih
        have hemp := deq_step_empty hN hm64 ih2 f
        rw [hemp] at hdeq
        simp only [Option.some.injEq, Prod.mk.injEq, true_and] at hdeq
        rw [← hdeq]
        exact ih

/-!
Capacity-1 machinery: in single-actor semantics the local `pos` of a loop
always equals the position counter, so a completed claim is the first
iteration's claim at that counter; this characterizes the post-state of an
accepted enqueue and of a claimed dequeue, from which the capacity-1
invariant `InvOne` follows for all reachable states.
-/

theorem enqueueAux_accepted_self {T : Type} {msk : Nat} {item : T} :
    ∀ {fuel : Nat} {buffer : List (Cell T)} {epos : Nat}
      {buf1 : List (Cell T)} {epos1 : Nat},
      enqueueAux T msk item fuel buffer epos epos =
        some (EnqResult.accepted, buf1, epos1) →
      epos1 = wrap (epos + 1) ∧
        buf1 = buffer.set (epos &&& msk) ⟨some item, wrap (epos + 1)⟩ := by
  intro fuel
  induction fuel with
  | zero =>
    intro buffer epos buf1 epos1 h
    simp [enqueueAux] at h
  | succ f ih =>
    intro buffer epos buf1 epos1 h
    rw [enqueueAux] at h
    split at h
    · split at h
      · simp only [Option.some.injEq, Prod.mk.injEq, true_and] at h
        exact ⟨h.2.symm, h.1.symm⟩
      · next hne => exact absurd rfl hne
    · split at h
      · simp at h
      · exact ih h

theorem dequeueAux_claimed_self {T : Type} {msk : Nat} :
    ∀ {fuel : Nat} {buffer : List (Cell T)} {dpos : Nat} {r : DeqResult T}
      {buf1 : List (Cell T)} {dpos1 : Nat},
      dequeueAux T msk fuel buffer dpos dpos = some (r, buf1, dpos1) →
      r ≠ DeqResult.empty →
      dpos1 = wrap (dpos + 1) ∧
        buf1 = buffer.set (dpos &&& msk)
          ⟨(buffer.getD (dpos &&& msk) (Cell.new T 0)).data,
            wrap (wrap (dpos + msk) + 1)⟩ := by
  intro fuel
  induction fuel with
  | zero =>
    intro buffer dpos r buf1 dpos1 h _
    simp [dequeueAux] at h
  | succ f ih =>
    intro buffer dpos r buf1 dpos1 h hr
    rw [dequeueAux] at h
    split at h
    · split at h
      · simp only [Option.some.injEq, Prod.mk.injEq] at h
        exact ⟨h.2.2.symm, h.2.1.symm⟩
      · next hne => exact absurd rfl hne
    · split at h
      · simp only [Option.some.injEq, Prod.mk.injEq] at h
        exact absurd h.1.symm hr
      · exact ih h hr

theorem and_mask_one (pos : Nat) : pos &&& mask 1 = 0 := by
  rw [and_mask_eq_mod (show (1 : Nat) = 2 ^ 0 by norm_num), Nat.mod_one]

theorem reach_invOne {T : Type} :
    ∀ {nE nD : Nat} {q : MpMcQueue T 1}, Reach T 1 nE nD q →
      InvOne T nE nD q := by
  intro nE nD q h
  induction h with
  | init =>
    refine ⟨new_buffer_length T 1, (Nat.zero_mod _).symm,
      (Nat.zero_mod _).symm, Or.inl ?_⟩
    rw [new_buffer_getD T 1 (by omega)]
    exact (Nat.zero_mod _).symm
  | @enq_ok nE nD q item fuel q1 hr henq ih =>
    obtain ⟨hbl, hep, hdp, hs⟩ := ih
    obtain ⟨buf, pos, haux, hq1⟩ := enqueue_eq_some henq
    obtain ⟨hpos, hbuf⟩ := enqueueAux_accepted_self haux
    have hwrap : wrap (q.enqueue_pos + 1) = (nE + 1) % USIZE := by
      rw [hep]
      show (nE % USIZE + 1) % USIZE = (nE + 1) % USIZE
      unfold USIZE
      omega
    subst hq1
    refine ⟨?_, ?_, hdp, Or.inl ?_⟩
    · show buf.length = 1
      rw [hbuf, List.length_set]
      exact hbl
    · show pos = (nE + 1) % USIZE
      rw [hpos, hwrap]
    · show (buf.getD 0 (Cell.new T 0)).sequence = (nE + 1) % USIZE
      rw [hbuf, and_mask_one, getD_set_self _ (by rw [hbl]; omega)]
      exact hwrap
  | @enq_full nE nD q item fuel r q1 hr henq ih =>
    obtain ⟨buf, pos, haux, hq1⟩ := enqueue_eq_some henq
    obtain ⟨hre, hbuf, hpos⟩ := enqueueAux_rejected_eq haux
    subst hq1
    rw [hbuf, hpos]
    exact ih
  | @deq_ok nE nD q fuel v q1 hr hdeq ih =>
    obtain ⟨hbl, hep, hdp, hs⟩ := ih
    obtain ⟨buf, pos, haux, hq1⟩ := dequeue_eq_some hdeq
    obtain ⟨hpos, hbuf⟩ := dequeueAux_claimed_self haux (by simp)
    have hwrap : wrap (q.dequeue_pos + 1) = (nD + 1) % USIZE := by
      rw [hdp]
      show (nD % USIZE + 1) % USIZE = (nD + 1) % USIZE
      unfold USIZE
      omega
    have hseq : wrap (wrap (q.dequeue_pos + mask 1) + 1) =
        (nD + 1) % USIZE := by
      rw [hdp]
      show wrap (wrap (nD % USIZE + mask 1) + 1) = (nD + 1) % USIZE
      unfold wrap mask USIZE
      omega
    subst hq1
    refine ⟨?_, hep, ?_, Or.inr ?_⟩
    · show buf.length = 1
      rw [hbuf, List.length_set]
      exact hbl
    · show pos = (nD + 1) % USIZE
      rw [hpos, hwrap]
    · show (buf.getD 0 (Cell.new T 0)).sequence = (nD + 1) % USIZE
      rw [hbuf, and_mask_one, getD_set_self _ (by rw [hbl]; omega)]
      exact hseq
  | @deq_uninit nE nD q fuel q1 hr hdeq ih =>
    obtain ⟨hbl, hep, hdp, hs⟩ := ih
    obtain ⟨buf, pos, haux, hq1⟩ := dequeue_eq_some hdeq
    obtain ⟨hpos, hbuf⟩ := dequeueAux_claimed_self haux (by simp)
    have hwrap : wrap (q.dequeue_pos + 1) = (nD + 1) % USIZE := by
      rw [hdp]
      show (nD % USIZE + 1) % USIZE = (nD + 1) % USIZE
      unfold USIZE
      omega
    have hseq : wrap (wrap (q.dequeue_pos + mask 1) + 1) =
        (nD + 1) % USIZE := by
      rw [hdp]
      show wrap (wrap (nD % USIZE + mask 1) + 1) = (nD + 1) % USIZE
      unfold wrap mask USIZE
      omega
    subst hq1
    refine ⟨?_, hep, ?_, Or.inr ?_⟩
    · show buf.length = 1
      rw [hbuf, List.length_set]
      exact hbl
    · show pos = (nD + 1) % USIZE
      rw [hpos, hwrap]
    · show (buf.getD 0 (Cell.new T 0)).sequence = (nD + 1) % USIZE
      rw [hbuf, and_mask_one, getD_set_self _ (by rw [hbl]; omega)]
      exact hseq
  | @deq_empty nE nD q fuel q1 hr hdeq ih =>
    obtain ⟨buf, pos, haux, hq1⟩ := dequeue_eq_some hdeq
    obtain ⟨hbuf, hpos⟩ := dequeueAux_empty_eq haux
    subst hq1
    rw [hbuf, hpos]
    exact ih

theorem deq_empty_one {T : Type} {n : Nat} {q : MpMcQueue T 1}
    (hInv : InvOne T n n q) (f : Nat) :
    q.dequeue (f + 1) = some (DeqResult.empty, q) := by
  obtain ⟨hbl, hep, hdp, hs⟩ := hInv
  have hseq : (q.buffer.getD 0 (Cell.new T 0)).sequence = n % USIZE := by
    rcases hs with h | h <;> exact h
  have hdif : i8_sub
      (q.buffer.getD (q.dequeue_pos &&& mask 1) (Cell.new T 0)).sequence
      (wrap (q.dequeue_pos + 1)) < 0 := by
    rw [and_mask_one, hseq, hdp]
    apply i8_sub_neg
    unfold i8_byte
    have h1 : n % USIZE % 256 = n % 256 := Nat.mod_mod_of_dvd _ dvd256_USIZE
    have h2 := wrap_mod256 (n % USIZE + 1)
    omega
  unfold MpMcQueue.dequeue
  rw [dequeueAux]
  rw [if_neg (by omega), if_pos hdif]

/-- C1: the spec demands that a non-power-of-two capacity be rejected at
construction time, but the code contains no such check: for `N = 3` the
constructor succeeds and yields an operating queue — two consecutive
enqueues are both accepted, and (because `MASK = 2` maps positions 0 and 1
to the same slot 0) the second silently overwrites the first value.  This
evaluates the embedded code at the failing input of the `code_bug`
verdict. -/
theorem C1_nonPowerOfTwo_constructs_usable_queue :
    ((MpMcQueue.new Nat 3).enqueue 10 1).bind (fun p => p.2.enqueue 20 1) =
      some (EnqResult.accepted,
        ⟨[⟨some 20, 2⟩, ⟨none, 1⟩, ⟨none, 2⟩], 0, 2⟩) := by
  decide

/-- C3: wraparound stability on a capacity-2 queue — after 255 cycles of
{enqueue(0) accepted; dequeue() = Value(0)} starting from a fresh queue, the
next dequeue returns Empty in one loop iteration. -/
theorem C3_wraparound_stability :
    (cyclesFrom 255 (MpMcQueue.new Nat 2)).bind
      (fun q => (q.dequeue 1).map Prod.fst) = some DeqResult.empty := by
  decide

/-- C4: full-at-wrapped-position on a capacity-2 queue — after 254 cycles of
{enqueue(0) accepted; dequeue() = Value(0)} starting from a fresh queue, two
further enqueue(0) calls are accepted, and the third is rejected and returns
0. -/
theorem C4_full_at_wrapped_position :
    (((cyclesFrom 254 (MpMcQueue.new Nat 2)).bind
          (fun q => enqueueOk q 0)).bind
        (fun q => enqueueOk q 0)).bind
      (fun q => (q.enqueue 0 1).map Prod.fst) =
      some (EnqResult.rejected 0) := by
  decide

/-- C8: dequeue republish step — whenever a dequeue claims a slot and
returns a value, there is a claimed position `p` such that the new
`dequeue_pos` is `p + 1` (wrapped), and the claimed slot's sequence counter
was set to `p + N` modulo `2 ^ 64` (position plus capacity, with
wraparound); whenever `2 ≤ N < 2 ^ 64` this differs from `p + 1`
(wrapped). -/
theorem C8_dequeue_republish {T : Type} {N : Nat} (q : MpMcQueue T N)
    (fuel : Nat) (v : T) (q1 : MpMcQueue T N)
    (hN : 1 ≤ N) (hlen : q.buffer.length = N)
    (h : q.dequeue fuel = some (DeqResult.value v, q1)) :
    ∃ p, q1.dequeue_pos = wrap (p + 1) ∧
      (q1.buffer.getD (p &&& mask N) (Cell.new T 0)).sequence =
        (p + N) % USIZE ∧
      (2 ≤ N → N < USIZE →
        (q1.buffer.getD (p &&& mask N) (Cell.new T 0)).sequence ≠
          wrap (p + 1)) := by
  obtain ⟨buf, pos, haux, hq1⟩ := dequeue_eq_some h
  obtain ⟨p, hpos1, hbuf1⟩ := dequeueAux_claimed haux (by simp)
  have hidx : p &&& mask N < q.buffer.length := by
    rw [hlen]
    have h1 : p &&& mask N ≤ mask N := Nat.and_le_right
    have h2 : mask N < N := by unfold mask; omega
    omega
  have hseq : (q1.buffer.getD (p &&& mask N) (Cell.new T 0)).sequence =
      (p + N) % USIZE := by
    rw [hq1]
    show (buf.getD (p &&& mask N) (Cell.new T 0)).sequence = (p + N) % USIZE
    rw [hbuf1, getD_set_self _ hidx]
    show wrap (wrap (p + mask N) + 1) = (p + N) % USIZE
    unfold wrap mask USIZE
    omega
  refine ⟨p, by rw [hq1]; exact hpos1, hseq, ?_⟩
  intro h2 hU hcontra
  rw [hseq] at hcontra
  unfold wrap USIZE at hcontra
  unfold USIZE at hU
  omega

/-- C8 witness: a concrete dequeue on a capacity-2 queue holding one value
claims position 0 and republishes sequence 2 = 0 + N. -/
theorem C8_dequeue_republish_witness :
    ∃ p, (⟨[⟨some 5, 2⟩, ⟨none, 1⟩], 1, 1⟩ :
          MpMcQueue Nat 2).dequeue_pos = wrap (p + 1) ∧
      ((⟨[⟨some 5, 2⟩, ⟨none, 1⟩], 1, 1⟩ :
          MpMcQueue Nat 2).buffer.getD (p &&& mask 2)
        (Cell.new Nat 0)).sequence = (p + 2) % USIZE ∧
      (2 ≤ 2 → 2 < USIZE →
        ((⟨[⟨some 5, 2⟩, ⟨none, 1⟩], 1, 1⟩ :
            MpMcQueue Nat 2).buffer.getD (p &&& mask 2)
          (Cell.new Nat 0)).sequence ≠ wrap (p + 1)) :=
  C8_dequeue_republish qOne2 1 5 ⟨[⟨some 5, 2⟩, ⟨none, 1⟩], 1, 1⟩
    (by norm_num) (by decide) (by decide)

/-- C9: failure atomicity — a rejected enqueue returns exactly the item that
was passed in and leaves the queue (buffer, both position counters)
unchanged, and an empty dequeue leaves the queue unchanged.  This holds for
every queue state and every fuel. -/
theorem C9_failure_atomicity {T : Type} {N : Nat} (q : MpMcQueue T N)
    (item : T) (fuel : Nat) :
    (∀ r q1, q.enqueue item fuel = some (EnqResult.rejected r, q1) →
      r = item ∧ q1 = q) ∧
    (∀ q2, q.dequeue fuel = some (DeqResult.empty, q2) → q2 = q) := by
  constructor
  · intro r q1 h
    obtain ⟨buf, pos, haux, hq1⟩ := enqueue_eq_some h
    obtain ⟨hr, hbuf, hpos⟩ := enqueueAux_rejected_eq haux
    refine ⟨hr, ?_⟩
    rw [hq1, hbuf, hpos]
  · intro q2 h
    obtain ⟨buf, pos, haux, hq1⟩ := dequeue_eq_some h
    obtain ⟨hbuf, hpos⟩ := dequeueAux_empty_eq haux
    rw [hq1, hbuf, hpos]

/-- C9 witness: on a concrete full capacity-2 queue the rejected enqueue
hands back the item and changes nothing, and on a fresh queue the empty
dequeue changes nothing. -/
theorem C9_failure_atomicity_witness :
    ((9 : Nat) = 9 ∧
      (⟨[⟨some 1, 1⟩, ⟨some 2, 2⟩], 0, 2⟩ : MpMcQueue Nat 2) = qFull2) ∧
    (MpMcQueue.new Nat 2 = MpMcQueue.new Nat 2) :=
  ⟨(C9_failure_atomicity qFull2 9 1).1 9 ⟨[⟨some 1, 1⟩, ⟨some 2, 2⟩], 0, 2⟩
      (by decide),
    (C9_failure_atomicity (MpMcQueue.new Nat 2) 0 1).2 (MpMcQueue.new Nat 2)
      (by decide)⟩

/-- C7: construction postcondition — for every capacity `N`, the fresh queue
has slot `i`'s sequence counter equal to `i` and empty storage for every
`i < N` (`Cell.new T i` is exactly ⟨`none`, `i`⟩), both position counters
equal to zero, and a buffer of length `N`. -/
theorem C7_construction_postcondition (T : Type) (N i : Nat) (hi : i < N) :
    (MpMcQueue.new T N).buffer.getD i (Cell.new T 0) = Cell.new T i ∧
    (MpMcQueue.new T N).enqueue_pos = 0 ∧
    (MpMcQueue.new T N).dequeue_pos = 0 ∧
    (MpMcQueue.new T N).buffer.length = N :=
  ⟨new_buffer_getD T N hi _, rfl, rfl, new_buffer_length T N⟩

/-- C7 witness: the construction postcondition evaluated at `N = 4`,
`i = 2`. -/
theorem C7_construction_postcondition_witness :
    (MpMcQueue.new Nat 4).buffer.getD 2 (Cell.new Nat 0) = Cell.new Nat 2 ∧
    (MpMcQueue.new Nat 4).enqueue_pos = 0 ∧
    (MpMcQueue.new Nat 4).dequeue_pos = 0 ∧
    (MpMcQueue.new Nat 4).buffer.length = 4 :=
  C7_construction_postcondition Nat 4 2 (by norm_num)

/-- C2 counterexample: the capacity-bound claim quantifies over every
power-of-two capacity, but it fails at both ends of the range.  For `N = 1`
(a power of two) the second enqueue on a fresh queue — the `(N+1)`-th — is
wrongly accepted instead of rejected with the value handed back.  For
`N = 256` (a power of two) the `(N+1)`-th enqueue neither succeeds nor
returns the value: its retry loop never exits, because the 8-bit narrowed
comparison can no longer see that the queue is full. -/
theorem C2_capacity_bound_counterexample :
    ((((MpMcQueue.new Nat 1).enqueue 5 1).bind
        (fun p => p.2.enqueue 7 1)).map Prod.fst = some EnqResult.accepted ∧
      (((MpMcQueue.new Nat 1).enqueue 5 1).bind
        (fun p => p.2.enqueue 7 1)).map Prod.fst ≠
        some (EnqResult.rejected 7)) ∧
    (enqueueAll (MpMcQueue.new Nat 256) (List.replicate 256 0) =
        some q256full ∧
      q256full.enqueueDiverges 7) := by
  refine ⟨⟨by decide, by decide⟩, by decide, ?_⟩
  exact enqueue_diverges_of (by decide)

/-- C10 counterexample: sequential termination fails on reachable states.
For `N = 1`, after two (wrongly) accepted enqueues on a fresh queue, the
next dequeue call loops forever (`dif > 0` with an unchanging position).
For `N = 256`, after 256 accepted enqueues fill a fresh queue, the next
enqueue call loops forever. -/
theorem C10_counterexample :
    (((MpMcQueue.new Nat 1).enqueue 0 1).bind (fun p => p.2.enqueue 0 1) =
        some (EnqResult.accepted, q1afterTwo) ∧
      q1afterTwo.dequeueDiverges) ∧
    (enqueueAll (MpMcQueue.new Nat 256) (List.replicate 256 0) =
        some q256full ∧
      q256full.enqueueDiverges 0) := by
  refine ⟨⟨by decide, ?_⟩, by decide, ?_⟩
  · exact dequeue_diverges_of (by decide)
  · exact enqueue_diverges_of (by decide)

/-- C6: empty-queue determinism — on every reachable state of a queue of
power-of-two capacity `N = 2 ^ m` (`m ≤ 64`, so including the degenerate
capacity `N = 1`) in which every accepted enqueue has been matched by a
completed dequeue (`Reach T N n n q`; the freshly constructed queue is the
case `n = 0`), `dequeue` returns Empty in one loop iteration and leaves the
queue unchanged — hence repeating it returns Empty again each time. -/
theorem C6_empty_queue_deterministic (T : Type) (m N n : Nat)
    (q : MpMcQueue T N) (hN : N = 2 ^ m) (hm64 : m ≤ 64)
    (hreach : Reach T N n n q) :
    q.dequeue 1 = some (DeqResult.empty, q) := by
  rcases Nat.eq_zero_or_pos m with hm0 | hm1
  · subst hm0
    have hN1 : N = 1 := by simpa using hN
    subst hN1
    exact deq_empty_one (reach_invOne hreach) 0
  · exact deq_step_empty hN hm64 (reach_inv hN hm1 hm64 hreach) 0

/-- C6 witness: a fresh capacity-2 queue dequeues Empty and is unchanged. -/
theorem C6_empty_queue_deterministic_witness :
    (MpMcQueue.new Nat 2).dequeue 1 =
      some (DeqResult.empty, MpMcQueue.new Nat 2) :=
  C6_empty_queue_deterministic Nat 1 2 0 (MpMcQueue.new Nat 2) (by norm_num)
    (by norm_num) Reach.init

/-- C10 (amended): sequential termination of the retry loops holds for
power-of-two capacities `N = 2 ^ m` with `1 ≤ m ≤ 7` (i.e. `2 ≤ N ≤ 128`):
on every reachable state, both `enqueue` and `dequeue` complete within a
single loop iteration (fuel 1).  The restriction is forced by the
counterexample: at `N = 1` and at `N = 256` the loops can run forever. -/
theorem C10_sequential_termination (T : Type) (m N nE nD : Nat)
    (q : MpMcQueue T N) (item : T) (hN : N = 2 ^ m) (hm1 : 1 ≤ m)
    (hm7 : m ≤ 7) (hreach : Reach T N nE nD q) :
    (∃ r q1, q.enqueue item 1 = some (r, q1)) ∧
    (∃ r q2, q.dequeue 1 = some (r, q2)) := by
  have hInv := reach_inv hN hm1 (by omega) hreach
  have hED := hInv.2.2.2.2.1
  have hDE := hInv.2.2.2.1
  constructor
  · rcases Nat.lt_or_ge nE (nD + N) with hlt | hge
    · obtain ⟨q1, haux, _⟩ := enq_step_accept hN (by omega) hInv hlt item 0
      exact ⟨_, q1, haux⟩
    · have heq : nE = nD + N := by omega
      exact ⟨EnqResult.rejected item, q,
        enq_step_reject hN hm1 hm7 hInv heq item 0⟩
  · rcases Nat.lt_or_ge nD nE with hlt | hge
    · obtain ⟨v, q1, haux, _⟩ := deq_step_value hN (by omega) hInv hlt 0
      exact ⟨_, q1, haux⟩
    · have heq : nD = nE := by omega
      have hInv2 : Inv T N nE nE q := heq ▸ hInv
      exact ⟨DeqResult.empty, q, deq_step_empty hN (by omega) hInv2 0⟩

/-- C10 witness: on a fresh capacity-2 queue both operations complete with
fuel 1. -/
theorem C10_sequential_termination_witness :
    (∃ r q1, (MpMcQueue.new Nat 2).enqueue 7 1 = some (r, q1)) ∧
    (∃ r q2, (MpMcQueue.new Nat 2).dequeue 1 = some (r, q2)) :=
  C10_sequential_termination Nat 1 2 0 0 (MpMcQueue.new Nat 2) 7 (by norm_num)
    le_rfl (by norm_num) Reach.init

end Mpmc
